import Mathlib

/-!
Verification of the foreign-field arithmetic gadget (`ForeignField`, `Sum`,
`assertMul` and helpers in `src/src/lib/fetch.ts`, lines 386-1050).

The gadget is embedded shallowly over `ℤ`:

* JS `BigInt` values are `ℤ`.
* `x & (2^k - 1)` is `x % 2^k` (Lean's `%` on `ℤ` is `Int.emod`, which matches
  the two's-complement semantics of JS `&` with an all-ones mask).
* `x >> k` is `x / 2^k` (Lean's `/` on `ℤ` is `Int.ediv`, i.e. floor division
  for a positive divisor, matching the JS arithmetic shift).
* `x / y` on JS BigInts truncates towards zero, which is `Int.tdiv`.
* the value-duality (constant vs. symbolic operands) is an explicit `Bool`
  parameter `isConst`; constant-folding paths and witness-generation closures
  (`exists(n, () => ...)`) are both modelled as pure functions on `ℤ`.
* synchronous `assert` failures at construction time are `Option.none`;
  circuit assertions that are checked at proof time are returned as explicit
  `Bool` flags (`true` = the emitted constraints hold on the computed witness).
-/

set_option maxRecDepth 100000

namespace ForeignFieldGadget

/-- Modelled from the spec: the limb-width constants come from
`range-check.js`, which is not among the sources. The spec fixes the limb
width `l` with derived widths `l2 = 2l`, `l3 = 3l`, and the code's own bound
comments place the supported moduli `f < 2^259` strictly inside the
limb-triple range with `2^264 = 2^l3`, which forces `l = 88`. -/
def l : ℕ := 88

/-- Derived width `l2 = 2 * l` (`range-check.js`). -/
def l2 : ℕ := 2 * l

/-- Derived width `l3 = 3 * l` (`range-check.js`). -/
def l3 : ℕ := 3 * l

/-- A 3-limb bigint: the `bigint3` tuple type of the source. -/
structure bigint3 where
  x0 : ℤ
  x1 : ℤ
  x2 : ℤ
deriving DecidableEq

/-- `combine([x0, x1, x2]) = x0 + (x1 << l) + (x2 << l2)`. -/
def combine (x : bigint3) : ℤ := x.x0 + x.x1 * 2 ^ l + x.x2 * 2 ^ l2

/-- `split(x) = [x & lMask, (x >> l) & lMask, (x >> l2) & lMask]`. -/
def split (x : ℤ) : bigint3 :=
  ⟨x % 2 ^ l, x / 2 ^ l % 2 ^ l, x / 2 ^ l2 % 2 ^ l⟩

/-- `combine2([x0, x1]) = x0 + (x1 << l)` (on the two low limbs). -/
def combine2 (x0 x1 : ℤ) : ℤ := x0 + x1 * 2 ^ l

/-- `split2(x) = [x & lMask, (x >> l) & lMask]`. -/
def split2 (x : ℤ) : ℤ × ℤ := (x % 2 ^ l, x / 2 ^ l % 2 ^ l)

/-- Modelled from the spec: `mod` from `bindings/crypto/finite_field.js`
(not among the sources) returns the canonical representative of `x` modulo
`f` in `[0, f)` for `f > 0`; this is `Int.emod`. -/
def fieldMod (x f : ℤ) : ℤ := x % f

/-- The overflow indicator of `singleAdd`: `0`, set to `1` when
`sign = 1 ∧ r ≥ f`, to `-1` when `sign = -1 ∧ r < 0`, and reset to `0` in the
special case `f = 0`, where `r = combine(x) + sign * combine(y)`. -/
def singleAddOverflow (x y : bigint3) (sign f : ℤ) : ℤ :=
  if f = 0 then 0
  else if sign = 1 ∧ f ≤ combine x + sign * combine y then 1
  else if sign = -1 ∧ combine x + sign * combine y < 0 then -1 else 0

/-- The raw low-mid value of `singleAdd` before masking:
`r01 = combine2(x) + sign * combine2(y) - overflow * combine2(f_)`. -/
def singleAddR01 (x y : bigint3) (sign f : ℤ) : ℤ :=
  combine2 x.x0 x.x1 + sign * combine2 y.x0 y.x1 -
    singleAddOverflow x y sign f * combine2 (split f).x0 (split f).x1

/-- Witness computation of `singleAdd(x, y, sign, f)`: the body of its
`exists(5, ...)` closure, with overflow and raw low-mid value factored into
`singleAddOverflow` and `singleAddR01`. The carry is `r01 >> l2`, the low two
result limbs are `split2(r01 & l2Mask)` and the high limb absorbs the carry.
Returns the result triple `[r0, r1, r2]` and the overflow indicator. -/
def singleAdd (x y : bigint3) (sign f : ℤ) : bigint3 × ℤ :=
  let overflow := singleAddOverflow x y sign f
  let r01 := singleAddR01 x y sign f
  let carry := r01 / 2 ^ l2
  let r01m := r01 % 2 ^ l2
  let r2 := x.x2 + sign * y.x2 - overflow * (split f).x2 + carry
  (⟨r01m % 2 ^ l, r01m / 2 ^ l % 2 ^ l, r2⟩, overflow)

/-- The constant-folding value of `sum`:
`sign.reduce((sum, s, i) => sum + s * xBig[i + 1], xBig[0])`. -/
def sumConstVal (x0 : ℤ) (rest : List ℤ) (signs : List ℤ) : ℤ :=
  (List.zip signs rest).foldl (fun acc p => acc + p.1 * p.2) x0

/-- The provable-case chain of `sum` (and of `Sum.finish`): repeated
`singleAdd` calls folding the term list into one triple. -/
def addChain (f : ℤ) (x : bigint3) (terms : List (ℤ × bigint3)) : bigint3 :=
  terms.foldl (fun acc p => (singleAdd acc p.2 p.1 f).1) x

/-- `sum(x, sign, f)`: fails (misuse) unless `x.length = sign.length + 1`;
constant case folds the values and reduces mod `f`; provable case runs the
`singleAdd` chain (the closing zero row and the result range check do not
change the value). -/
def sum (xs : List bigint3) (signs : List ℤ) (isConst : Bool) (f : ℤ) :
    Option bigint3 :=
  if xs.length ≠ signs.length + 1 then none
  else
    match xs with
    | [] => none
    | x0 :: rest =>
      if isConst then
        some (split (fieldMod (sumConstVal (combine x0) (rest.map combine) signs) f))
      else some (addChain f x0 (List.zip signs rest))

/-- `ForeignField.negate(x, f) = sum([Field3.from(0), x], [-1], f)`. -/
def negate (x : bigint3) (isConst : Bool) (f : ℤ) : Option bigint3 :=
  sum [split 0, x] [-1] isConst f

/-- Modelled from the spec: `multiRangeCheck` from `range-check.js` (not among
the sources) proves that each limb of a triple lies in `[0, 2^l)`. This
predicate states that the check holds on a concrete witness. -/
def multiRangeCheckHolds (x : bigint3) : Bool :=
  decide (0 ≤ x.x0 ∧ x.x0 < 2 ^ l ∧ 0 ≤ x.x1 ∧ x.x1 < 2 ^ l ∧
    0 ≤ x.x2 ∧ x.x2 < 2 ^ l)

/-- `ForeignField.assertLessThan(x, f)`: fails unless `f > 0`; the constant
case asserts `x < f` directly; the provable case reduces to
`negate(x, f - 1)`. The outer `Option` is construction-time failure; the
inner value is the triple produced by the negation gadget in the provable
case (`none` in the constant case, which produces no value). -/
def assertLessThan (x : bigint3) (isConst : Bool) (f : ℤ) :
    Option (Option bigint3) :=
  if ¬ 0 < f then none
  else if isConst then
    if combine x < f then some none else none
  else some (negate x false (f - 1))

/-- `bitSlice(x, start, length) = (x >> start) & ((1 << length) - 1)`
(from `common.js`, reproduced here as the straightforward bit slice). -/
def bitSlice (x : ℤ) (start len : ℕ) : ℤ := x / 2 ^ start % 2 ^ len

/-- The 21 values produced by the `exists(21, ...)` closure of
`multiplyNoRangeCheck`. -/
structure MulWitness where
  r01 : ℤ
  r2 : ℤ
  q0 : ℤ
  q1 : ℤ
  q2 : ℤ
  q2Bound : ℤ
  p10 : ℤ
  p110 : ℤ
  p111 : ℤ
  c0 : ℤ
  c1_00 : ℤ
  c1_12 : ℤ
  c1_24 : ℤ
  c1_36 : ℤ
  c1_48 : ℤ
  c1_60 : ℤ
  c1_72 : ℤ
  c1_84 : ℤ
  c1_86 : ℤ
  c1_88 : ℤ
  c1_90 : ℤ
deriving DecidableEq

/-- Witness computation of `multiplyNoRangeCheck(a, b, f)`: the body of its
`exists(21, ...)` closure (the emitted `foreignFieldMul` row and the
multi-range check on `[p10, p110, q2Bound]` are constraint rows and do not
change the values). `q = ab / f` uses the truncating BigInt division. -/
def multiplyNoRangeCheck (a b : bigint3) (f : ℤ) : MulWitness :=
  let fneg := 2 ^ l3 - f
  let fs := split fneg
  let f2 := f / 2 ^ l2
  let f2Bound := 2 ^ l - f2 - 1
  let ab := combine a * combine b
  let q := Int.tdiv ab f
  let r := ab - q * f
  let qs := split q
  let rs := split r
  let r01 := combine2 rs.x0 rs.x1
  let p0 := a.x0 * b.x0 + qs.x0 * fs.x0
  let p1 := a.x0 * b.x1 + a.x1 * b.x0 + qs.x0 * fs.x1 + qs.x1 * fs.x0
  let p2 := a.x0 * b.x2 + a.x1 * b.x1 + a.x2 * b.x0 +
    qs.x0 * fs.x2 + qs.x1 * fs.x1 + qs.x2 * fs.x0
  let ps := split p1
  let p11 := combine2 ps.x1 ps.x2
  let c0 := (p0 + ps.x0 * 2 ^ l - r01) / 2 ^ l2
  let c1 := (p2 - rs.x2 + p11 + c0) / 2 ^ l
  { r01 := r01, r2 := rs.x2
    q0 := qs.x0, q1 := qs.x1, q2 := qs.x2
    q2Bound := qs.x2 + f2Bound
    p10 := ps.x0, p110 := ps.x1, p111 := ps.x2
    c0 := c0
    c1_00 := bitSlice c1 0 12, c1_12 := bitSlice c1 12 12
    c1_24 := bitSlice c1 24 12, c1_36 := bitSlice c1 36 12
    c1_48 := bitSlice c1 48 12, c1_60 := bitSlice c1 60 12
    c1_72 := bitSlice c1 72 12
    c1_84 := bitSlice c1 84 2, c1_86 := bitSlice c1 86 2
    c1_88 := bitSlice c1 88 2, c1_90 := bitSlice c1 90 1 }

/-- Modelled from the spec: `compactMultiRangeCheck` from `range-check.js`
(not among the sources) splits the compact low-mid limb `r01` into two limbs,
range-checks `[r0, r1, r2]`, and returns the triple. -/
def compactMultiRangeCheck (r01 r2 : ℤ) : bigint3 :=
  ⟨r01 % 2 ^ l, r01 / 2 ^ l, r2⟩

/-- `multiply(a, b, f)`: asserts `f < 2^259`; constant case is direct modular
multiplication; provable case runs `multiplyNoRangeCheck` and returns the
remainder recombined by the compact range check (the range checks on quotient
and remainder do not change the values). -/
def multiply (a b : bigint3) (isConst : Bool) (f : ℤ) : Option bigint3 :=
  if ¬ f < 2 ^ 259 then none
  else if isConst then some (split (fieldMod (combine a * combine b) f))
  else
    let w := multiplyNoRangeCheck a b f
    some (compactMultiRangeCheck w.r01 w.r2)

/-- Modelled from the spec: `inverse` from
`bindings/crypto/finite_field.js` (not among the sources) returns the unique
multiplicative inverse of `x` in `[0, f)` when it exists (computed there by
the extended Euclidean algorithm) and `undefined` otherwise. It is modelled
extensionally as a bounded search over `[0, f)`, which returns the same
unique representative. -/
def modInverse (x f : ℤ) : Option ℤ :=
  if 0 < f then
    (List.range f.toNat).findSome? fun k =>
      if x * (k : ℤ) % f = 1 % f then some ((k : ℤ)) else none
  else none

/-- `inverse(x, f)`: asserts `f < 2^259`; constant case fails when no inverse
exists; provable case witnesses the inverse (or the `[0, 0, 0]` filler when
none exists — the subsequent `assertMulInternal` then fails at proof time). -/
def inverse (x : bigint3) (isConst : Bool) (f : ℤ) : Option bigint3 :=
  if ¬ f < 2 ^ 259 then none
  else if isConst then
    match modInverse (combine x) f with
    | none => none
    | some xInv => some (split xInv)
  else
    some
      (match modInverse (combine x) f with
      | none => ⟨0, 0, 0⟩
      | some xInv => split xInv)

/-- The divisor-nonzero guard of `divide` (emitted unless `allowZeroOverZero`):
with `y01 = y[0] + y[1]*2^l`, asserts that `(y01, y[2])` is neither `(0, 0)`
nor `(f01, f2)`, where `[f0, f1, f2] = split(f)` and
`f01 = combine2([f0, f1])`. -/
def divideGuard (y : bigint3) (f : ℤ) : Bool :=
  decide (¬ (y.x0 + y.x1 * 2 ^ l = 0 ∧ y.x2 = 0) ∧
    ¬ (y.x0 + y.x1 * 2 ^ l = combine2 (split f).x0 (split f).x1 ∧
      y.x2 = (split f).x2))

/-- `divide(x, y, f, { allowZeroOverZero })`: asserts `f < 2^259`; the
constant case inverts `y` (failing when no inverse exists, regardless of
`allowZeroOverZero`); the provable case witnesses `z = x * y⁻¹ mod f` (or the
`[0, 0, 0]` filler) and returns it together with the proof-time flag: `true`
iff the zero-guard assertions hold on the witness (always `true` when
`allowZeroOverZero` skips the guard). -/
def divide (x y : bigint3) (f : ℤ) (allowZeroOverZero isConst : Bool) :
    Option (bigint3 × Bool) :=
  if ¬ f < 2 ^ 259 then none
  else if isConst then
    match modInverse (combine y) f with
    | none => none
    | some yInv => some (split (fieldMod (combine x * yInv) f), true)
  else
    some
      (match modInverse (combine y) f with
        | none => ⟨0, 0, 0⟩
        | some yInv => split (fieldMod (combine x * yInv) f),
        allowZeroOverZero || divideGuard y f)

/-- Per-step bookkeeping of `Sum.finishForMulInput`: the witnessed `carry`
and `overflow` of the generic low-limb gate, and the circuit value `x0` of
the running low limb after the step. -/
structure MulInputGeneric where
  carry : ℤ
  overflow : ℤ
  x0 : ℤ
deriving DecidableEq

/-- The overflow computed by the `exists(2, ...)` closure of
`Sum.finishForMulInput` from the unconstrained running value `xRef` (the
source comment notes that it duplicates the logic in `singleAdd`). -/
def genericOverflow (xref : ℤ) (y : bigint3) (sign f : ℤ) : ℤ :=
  if f = 0 then 0
  else if sign = 1 ∧ f ≤ xref + sign * combine y then 1
  else if sign = -1 ∧ xref + sign * combine y < 0 then -1 else 0

/-- The low-limb carry witnessed by the same closure:
`carry = (x0 + sign * xi0 - overflow * f0) >> l` with `x0 = xRef & lMask` and
`f0 = f & lMask`. -/
def genericCarry (x0w : ℤ) (y : bigint3) (sign overflow f : ℤ) : ℤ :=
  (x0w + sign * y.x0 - overflow * (f % 2 ^ l)) / 2 ^ l

/-- The circuit low-limb accumulator update of `Sum.finishForMulInput`:
`x0 <- x0 + s * xi0 - o * f0 - c * 2^l`. -/
def genericX0 (x0circ : ℤ) (y : bigint3) (sign overflow carry f : ℤ) : ℤ :=
  x0circ + sign * y.x0 - overflow * (f % 2 ^ l) - carry * 2 ^ l

/-- The generic-gate loop of `Sum.finishForMulInput`: state is the circuit
low-limb accumulator `x0` and the unconstrained running value `xRef`; each
step records the witnessed `carry` and `overflow` and the updated circuit
low limb. -/
def mulInputGenericSteps (f : ℤ) : ℤ → ℤ → List (ℤ × bigint3) → List MulInputGeneric
  | _, _, [] => []
  | x0circ, xref, (sign, y) :: rest =>
    { carry := genericCarry (xref % 2 ^ l) y sign (genericOverflow xref y sign f) f
      overflow := genericOverflow xref y sign f
      x0 := genericX0 x0circ y sign (genericOverflow xref y sign f)
        (genericCarry (xref % 2 ^ l) y sign (genericOverflow xref y sign f) f) f } ::
    mulInputGenericSteps f
      (genericX0 x0circ y sign (genericOverflow xref y sign f)
        (genericCarry (xref % 2 ^ l) y sign (genericOverflow xref y sign f) f) f)
      (xref + sign * combine y - genericOverflow xref y sign f * f)
      rest

/-- The `ffadd` chain of `Sum.finishForMulInput` together with its per-step
assertions: `assertOneOf(carry, [0, 1, -1])`, `result[0].assertEquals(x0s[i])`
and `overflow.assertEquals(overflows[i])`. Returns the final triple and
whether every assertion holds on the witness values. -/
def mulInputChain (f : ℤ) : bigint3 → List (ℤ × bigint3) → List MulInputGeneric →
    bigint3 × Bool
  | x, [], [] => (x, true)
  | x, (sign, y) :: rest, g :: gs =>
    ((mulInputChain f (singleAdd x y sign f).1 rest gs).1,
      (decide (g.carry = 0 ∨ g.carry = 1 ∨ g.carry = -1) &&
        decide ((singleAdd x y sign f).1.x0 = g.x0) &&
        decide ((singleAdd x y sign f).2 = g.overflow)) &&
      (mulInputChain f (singleAdd x y sign f).1 rest gs).2)
  | x, _, _ => (x, false)

/-- The provable case of `Sum.finishForMulInput`: run the generic low-limb
gates seeded with `xs[0][0]` and `Field3.toBigint(xs[0])`, then the `ffadd`
chain wired against them. -/
def finishForMulInputProvable (x0 : bigint3) (rest : List bigint3)
    (signs : List ℤ) (f : ℤ) : bigint3 × Bool :=
  let terms := List.zip signs rest
  mulInputChain f x0 terms (mulInputGenericSteps f x0.x0 (combine x0) terms)

/-- The state of a `Sum` chain builder: the private `#result` (set exactly
once by finalization), `#summands` and `#ops` fields. -/
structure SumState where
  res : Option bigint3
  summands : List bigint3
  ops : List ℤ
deriving DecidableEq

/-- `new Sum(x)`. -/
def SumState.make (x : bigint3) : SumState := ⟨none, [x], []⟩

/-- `get result()`: asserts the sum is finished. -/
def SumState.result (s : SumState) : Option bigint3 := s.res

/-- `Sum.add(y)`: asserts the sum is not finished, pushes sign `1` and `y`. -/
def SumState.add (s : SumState) (y : bigint3) : Option SumState :=
  match s.res with
  | some _ => none
  | none => some ⟨none, s.summands ++ [y], s.ops ++ [1]⟩

/-- `Sum.sub(y)`: asserts the sum is not finished, pushes sign `-1` and `y`. -/
def SumState.sub (s : SumState) (y : bigint3) : Option SumState :=
  match s.res with
  | some _ => none
  | none => some ⟨none, s.summands ++ [y], s.ops ++ [-1]⟩

/-- `Sum.finish(f, isChained)`: asserts the sum is not finished; with no ops
returns the single summand unchanged; constant case folds through `sum`;
provable case runs the `singleAdd` chain (the `isChained` flag only controls
the closing zero row, not the value). Returns the updated state and the
result. -/
def SumState.finish (s : SumState) (f : ℤ) (isConst : Bool) :
    Option (SumState × bigint3) :=
  match s.res with
  | some _ => none
  | none =>
    match s.summands with
    | [] => none
    | x0 :: rest =>
      if s.ops = [] then some ({ s with res := some x0 }, x0)
      else
        let r :=
          if isConst then
            split (fieldMod (sumConstVal (combine x0) (rest.map combine) s.ops) f)
          else addChain f x0 (List.zip s.ops rest)
        some ({ s with res := some r }, r)

/-- `Sum.finishForMulInput(f, isChained)`: asserts the sum is not finished;
with no ops returns the single summand unchanged; constant case folds through
`sum`; provable case runs the generic-gate/`ffadd` combination. Returns the
updated state, the result, and the proof-time flag of the extra per-step
assertions (`true` in the paths that emit none). -/
def SumState.finishForMulInput (s : SumState) (f : ℤ) (isConst : Bool) :
    Option (SumState × bigint3 × Bool) :=
  match s.res with
  | some _ => none
  | none =>
    match s.summands with
    | [] => none
    | x0 :: rest =>
      if s.ops = [] then some ({ s with res := some x0 }, x0, true)
      else if isConst then
        let r := split (fieldMod (sumConstVal (combine x0) (rest.map combine) s.ops) f)
        some ({ s with res := some r }, r, true)
      else
        let p := finishForMulInputProvable x0 rest s.ops f
        some ({ s with res := some p.1 }, p.1, p.2)

/-- `Sum.rangeCheck()`: asserts the sum is finished; emits a multi-range
check on the result only when at least one op was chained. Returns the list
of range-checked triples. -/
def SumState.rangeCheck (s : SumState) : Option (List bigint3) :=
  match s.res with
  | none => none
  | some r => some (if s.ops = [] then [] else [r])

/-- `Sum.fromUnfinished(x)`: wraps a raw triple in a fresh `Sum`; asserts an
existing `Sum` is not yet finished. -/
def SumState.fromUnfinished (x : bigint3 ⊕ SumState) : Option SumState :=
  match x with
  | .inl t => some (SumState.make t)
  | .inr s =>
    match s.res with
    | some _ => none
    | none => some s

/-! ### Arithmetic helper lemmas -/

theorem two_pow_pos (k : ℕ) : (0 : ℤ) < 2 ^ k := by positivity

theorem l2_eq : (2 : ℤ) ^ l2 = 2 ^ l * 2 ^ l := by
  rw [l2, two_mul, pow_add]

theorem l3_eq : (2 : ℤ) ^ l3 = 2 ^ l2 * 2 ^ l := by
  rw [l3, l2, show 3 * l = 2 * l + l by ring, pow_add]

theorem l_dvd_l2 : (2 : ℤ) ^ l ∣ 2 ^ l2 := ⟨2 ^ l, l2_eq⟩

/-- Recombining the two low limbs of a split recovers the value mod `2^l2`. -/
theorem low_two_recombine (x : ℤ) :
    x % 2 ^ l + x / 2 ^ l % 2 ^ l * 2 ^ l = x % 2 ^ l2 := by
  set m : ℤ := 2 ^ l with hm
  have hmpos : 0 < m := two_pow_pos l
  set v : ℤ := x % m + x / m % m * m with hv
  have hv0 : 0 ≤ v := by
    have h1 : 0 ≤ x % m := Int.emod_nonneg x (ne_of_gt hmpos)
    have h2 : 0 ≤ x / m % m := Int.emod_nonneg _ (ne_of_gt hmpos)
    have h3 : 0 ≤ x / m % m * m := mul_nonneg h2 (le_of_lt hmpos)
    omega
  have hvlt : v < m * m := by
    have h1 : x % m < m := Int.emod_lt_of_pos x hmpos
    have h2 : x / m % m ≤ m - 1 := by
      have := Int.emod_lt_of_pos (x / m) hmpos
      omega
    have h3 : x / m % m * m ≤ (m - 1) * m :=
      mul_le_mul_of_nonneg_right h2 (le_of_lt hmpos)
    nlinarith
  have hx : x = v + m * m * (x / m / m) := by
    have e1 : x % m = x - m * (x / m) := Int.emod_def x m
    have e2 : x / m % m = x / m - m * (x / m / m) := Int.emod_def (x / m) m
    rw [hv, e1, e2]; ring
  calc x % m + x / m % m * m = v := rfl
    _ = v % (m * m) := (Int.emod_eq_of_lt hv0 hvlt).symm
    _ = (v + m * m * (x / m / m)) % (m * m) := by
        rw [mul_comm (m * m) (x / m / m), Int.add_mul_emod_self]
    _ = x % (m * m) := by rw [← hx]
    _ = x % 2 ^ l2 := by rw [l2_eq]

/-- A triple with in-range low limbs has its value's low `l` bits equal to
the lowest limb. -/
theorem combine_emod_low (x : bigint3) (h0 : 0 ≤ x.x0) (h1 : x.x0 < 2 ^ l) :
    combine x % 2 ^ l = x.x0 := by
  have : combine x = x.x0 + 2 ^ l * (x.x1 + x.x2 * 2 ^ l) := by
    rw [combine, l2_eq]; ring
  rw [this, Int.add_mul_emod_self_left, Int.emod_eq_of_lt h0 h1]

theorem split_x0 (x : ℤ) : (split x).x0 = x % 2 ^ l := rfl

/-- Low-mid recombination of a split. -/
theorem combine2_split (x : ℤ) :
    combine2 (split x).x0 (split x).x1 = x % 2 ^ l2 := by
  rw [combine2, split]; exact low_two_recombine x

theorem combine_split_eq (x : ℤ) (h0 : 0 ≤ x) (h3 : x < 2 ^ l3) :
    combine (split x) = x := by
  have hdiv0 : 0 ≤ x / 2 ^ l2 := Int.ediv_nonneg h0 (le_of_lt (two_pow_pos l2))
  have hdivlt : x / 2 ^ l2 < 2 ^ l := by
    refine Int.ediv_lt_of_lt_mul (two_pow_pos l2) ?_
    rw [mul_comm, ← l3_eq]
    exact h3
  have hhigh : x / 2 ^ l2 % 2 ^ l = x / 2 ^ l2 := Int.emod_eq_of_lt hdiv0 hdivlt
  have : combine (split x) =
      x % 2 ^ l + x / 2 ^ l % 2 ^ l * 2 ^ l + x / 2 ^ l2 % 2 ^ l * 2 ^ l2 := rfl
  rw [this, low_two_recombine, hhigh]
  have h := Int.ediv_add_emod x (2 ^ l2)
  linarith

/-- A triple whose limbs are individually range-checked equals the split of
its own value. -/
theorem split_combine_of_ranges (x : bigint3)
    (h00 : 0 ≤ x.x0) (h01 : x.x0 < 2 ^ l)
    (h10 : 0 ≤ x.x1) (h11 : x.x1 < 2 ^ l)
    (h20 : 0 ≤ x.x2) (h21 : x.x2 < 2 ^ l) :
    split (combine x) = x := by
  have e0 : combine x % 2 ^ l = x.x0 := combine_emod_low x h00 h01
  have e1 : combine x / 2 ^ l = x.x1 + x.x2 * 2 ^ l := by
    have : combine x = x.x0 + (x.x1 + x.x2 * 2 ^ l) * 2 ^ l := by
      rw [combine, l2_eq]; ring
    rw [this, Int.add_mul_ediv_right _ _ (ne_of_gt (two_pow_pos l)),
      Int.ediv_eq_zero_of_lt h00 h01, zero_add]
  have e1m : combine x / 2 ^ l % 2 ^ l = x.x1 := by
    rw [e1, Int.add_mul_emod_self, Int.emod_eq_of_lt h10 h11]
  have e2 : combine x / 2 ^ l2 = x.x2 := by
    have hc : combine x = (x.x0 + x.x1 * 2 ^ l) + x.x2 * 2 ^ l2 := by
      rw [combine]
    have hlt : x.x0 + x.x1 * 2 ^ l < 2 ^ l2 := by
      have := mul_le_mul_of_nonneg_right (by omega : x.x1 ≤ 2 ^ l - 1)
        (le_of_lt (two_pow_pos l))
      rw [l2_eq]; nlinarith
    have h0' : 0 ≤ x.x0 + x.x1 * 2 ^ l :=
      add_nonneg h00 (mul_nonneg h10 (le_of_lt (two_pow_pos l)))
    rw [hc, Int.add_mul_ediv_right _ _ (ne_of_gt (two_pow_pos l2)),
      Int.ediv_eq_zero_of_lt h0' hlt, zero_add]
  have e2m : combine x / 2 ^ l2 % 2 ^ l = x.x2 := by
    rw [e2, Int.emod_eq_of_lt h20 h21]
  rw [split]
  cases x
  simp_all

/-! ### `singleAdd` lemmas -/

theorem singleAdd_snd (x y : bigint3) (s f : ℤ) :
    (singleAdd x y s f).2 = singleAddOverflow x y s f := rfl

theorem singleAdd_fst (x y : bigint3) (s f : ℤ) :
    (singleAdd x y s f).1 =
      ⟨singleAddR01 x y s f % 2 ^ l2 % 2 ^ l,
        singleAddR01 x y s f % 2 ^ l2 / 2 ^ l % 2 ^ l,
        x.x2 + s * y.x2 - singleAddOverflow x y s f * (split f).x2 +
          singleAddR01 x y s f / 2 ^ l2⟩ := rfl

/-- The two low result limbs of `singleAdd` are in `[0, 2^l)`. -/
theorem singleAdd_low_limbs_range (x y : bigint3) (s f : ℤ) :
    0 ≤ (singleAdd x y s f).1.x0 ∧ (singleAdd x y s f).1.x0 < 2 ^ l ∧
    0 ≤ (singleAdd x y s f).1.x1 ∧ (singleAdd x y s f).1.x1 < 2 ^ l := by
  rw [singleAdd_fst]
  refine ⟨Int.emod_nonneg _ (ne_of_gt (two_pow_pos l)),
    Int.emod_lt_of_pos _ (two_pow_pos l),
    Int.emod_nonneg _ (ne_of_gt (two_pow_pos l)),
    Int.emod_lt_of_pos _ (two_pow_pos l)⟩

/-- The value of a `singleAdd` result: the row computes
`combine(x) + sign * combine(y) - overflow * combine(split f)` exactly. -/
theorem combine_singleAdd (x y : bigint3) (s f : ℤ) :
    combine (singleAdd x y s f).1 =
      combine x + s * combine y -
        singleAddOverflow x y s f * combine (split f) := by
  rw [singleAdd_fst]
  set o := singleAddOverflow x y s f with ho
  set r01 := singleAddR01 x y s f with hr
  have hlow : r01 % 2 ^ l2 % 2 ^ l + r01 % 2 ^ l2 / 2 ^ l % 2 ^ l * 2 ^ l =
      r01 % 2 ^ l2 := by
    have h := low_two_recombine (r01 % 2 ^ l2)
    rwa [Int.emod_emod_of_dvd _ (dvd_refl _)] at h
  have hde := Int.ediv_add_emod r01 (2 ^ l2)
  have hcombine : combine
      ⟨r01 % 2 ^ l2 % 2 ^ l, r01 % 2 ^ l2 / 2 ^ l % 2 ^ l,
        x.x2 + s * y.x2 - o * (split f).x2 + r01 / 2 ^ l2⟩ =
      r01 + (x.x2 + s * y.x2 - o * (split f).x2) * 2 ^ l2 := by
    rw [combine]
    dsimp only
    linarith [hlow, hde]
  rw [hcombine, hr, singleAddR01, ← ho]
  have hcf : combine (split f) =
      combine2 (split f).x0 (split f).x1 + (split f).x2 * 2 ^ l2 := by
    rw [combine, combine2]
  rw [hcf, combine, combine, combine2, combine2, combine2]
  ring

/-- The low result limb of `singleAdd` in terms of the operands' low limbs:
`r0 = (x0 + sign * y0 - overflow * (f & lMask)) mod 2^l`. -/
theorem singleAdd_x0 (x y : bigint3) (s f : ℤ) :
    (singleAdd x y s f).1.x0 =
      (x.x0 + s * y.x0 - singleAddOverflow x y s f * (f % 2 ^ l)) % 2 ^ l := by
  rw [singleAdd_fst]
  dsimp only
  rw [Int.emod_emod_of_dvd _ l_dvd_l2]
  have hsplit : singleAddR01 x y s f =
      x.x0 + s * y.x0 - singleAddOverflow x y s f * (f % 2 ^ l) +
        2 ^ l * (x.x1 + s * y.x1 - singleAddOverflow x y s f * (f / 2 ^ l % 2 ^ l)) := by
    rw [singleAddR01, combine2, combine2, combine2, split_x0]
    have : (split f).x1 = f / 2 ^ l % 2 ^ l := rfl
    rw [this]
    ring
  rw [hsplit, Int.add_mul_emod_self_left]

/-- Overflow shape: an addition step can only overflow upward, a subtraction
step only downward. -/
theorem singleAddOverflow_cases (x y : bigint3) (s f : ℤ) :
    (s = 1 → singleAddOverflow x y s f = 0 ∨ singleAddOverflow x y s f = 1) ∧
    (s = -1 → singleAddOverflow x y s f = 0 ∨ singleAddOverflow x y s f = -1) := by
  constructor <;> intro hs <;> subst hs <;> rw [singleAddOverflow] <;>
    split_ifs <;> simp_all

theorem two_pow_259_lt_l3 : (2 : ℤ) ^ 259 < 2 ^ l3 := by
  rw [l3, l]
  norm_num

theorem split_x2_eq (x : ℤ) (h0 : 0 ≤ x) (h3 : x < 2 ^ l3) :
    (split x).x2 = x / 2 ^ l2 := by
  have hdiv0 : 0 ≤ x / 2 ^ l2 := Int.ediv_nonneg h0 (le_of_lt (two_pow_pos l2))
  have hdivlt : x / 2 ^ l2 < 2 ^ l := by
    refine Int.ediv_lt_of_lt_mul (two_pow_pos l2) ?_
    rw [mul_comm, ← l3_eq]
    exact h3
  exact Int.emod_eq_of_lt hdiv0 hdivlt

/-- Dividing the masked low-mid part by `2^l` recovers the middle limb. -/
theorem emod_l2_ediv_l (x : ℤ) : x % 2 ^ l2 / 2 ^ l = x / 2 ^ l % 2 ^ l := by
  have h := low_two_recombine x
  have h0 : 0 ≤ x % 2 ^ l := Int.emod_nonneg x (ne_of_gt (two_pow_pos l))
  have h1 : x % 2 ^ l < 2 ^ l := Int.emod_lt_of_pos x (two_pow_pos l)
  calc x % 2 ^ l2 / 2 ^ l
      = (x % 2 ^ l + x / 2 ^ l % 2 ^ l * 2 ^ l) / 2 ^ l := by rw [h]
    _ = x / 2 ^ l % 2 ^ l := by
        rw [Int.add_mul_ediv_right _ _ (ne_of_gt (two_pow_pos l)),
          Int.ediv_eq_zero_of_lt h0 h1, zero_add]

/-- Value soundness of one `singleAdd` step on reduced operands: the result
value is `(x + sign * y) mod f` and stays in `[0, f)`. -/
theorem singleAdd_sound (x y : bigint3) (s f : ℤ)
    (hs : s = 1 ∨ s = -1) (hf : 0 < f) (hf3 : f < 2 ^ l3)
    (hx0 : 0 ≤ combine x) (hx1 : combine x < f)
    (hy0 : 0 ≤ combine y) (hy1 : combine y < f) :
    combine (singleAdd x y s f).1 = (combine x + s * combine y) % f ∧
    0 ≤ combine (singleAdd x y s f).1 ∧ combine (singleAdd x y s f).1 < f := by
  have hsf : combine (split f) = f := combine_split_eq f (le_of_lt hf) hf3
  have hfne : f ≠ 0 := ne_of_gt hf
  rw [combine_singleAdd, hsf]
  have hmod : ∀ a : ℤ, 0 ≤ a → a < f → a % f = a := fun a h1 h2 =>
    Int.emod_eq_of_lt h1 h2
  have hshift : ∀ a k : ℤ, (a + f * k) % f = a % f := fun a k =>
    Int.add_mul_emod_self_left a f k
  rcases hs with hs | hs <;> subst hs
  · by_cases hle : f ≤ combine x + 1 * combine y
    · have ho : singleAddOverflow x y 1 f = 1 := by
        rw [singleAddOverflow, if_neg hfne, if_pos ⟨rfl, hle⟩]
      have he : (combine x + 1 * combine y) % f =
          combine x + 1 * combine y - 1 * f := by
        have h1 : combine x + 1 * combine y =
            (combine x + 1 * combine y - 1 * f) + f * 1 := by ring
        have h2 := hshift (combine x + 1 * combine y - 1 * f) 1
        rw [← h1] at h2
        rw [h2]
        exact hmod _ (by linarith) (by linarith)
      rw [ho, he]
      exact ⟨rfl, by linarith, by linarith⟩
    · have ho : singleAddOverflow x y 1 f = 0 := by
        have hc1 : ¬ ((1 : ℤ) = 1 ∧ f ≤ combine x + 1 * combine y) :=
          fun h => hle h.2
        have hc2 : ¬ ((1 : ℤ) = -1 ∧ combine x + 1 * combine y < 0) :=
          fun h => absurd h.1 (by decide)
        rw [singleAddOverflow, if_neg hfne, if_neg hc1, if_neg hc2]
      have he : (combine x + 1 * combine y) % f = combine x + 1 * combine y :=
        hmod _ (by linarith) (by linarith)
      rw [ho, he]
      exact ⟨by ring, by linarith, by linarith⟩
  · by_cases hlt : combine x + -1 * combine y < 0
    · have ho : singleAddOverflow x y (-1) f = -1 := by
        have hc1 : ¬ ((-1 : ℤ) = 1 ∧ f ≤ combine x + -1 * combine y) :=
          fun h => absurd h.1 (by decide)
        rw [singleAddOverflow, if_neg hfne, if_neg hc1, if_pos ⟨rfl, hlt⟩]
      have he : (combine x + -1 * combine y) % f =
          combine x + -1 * combine y + f := by
        have h1 : combine x + -1 * combine y =
            (combine x + -1 * combine y + f) + f * (-1) := by ring
        have h2 := hshift (combine x + -1 * combine y + f) (-1)
        rw [← h1] at h2
        rw [h2]
        exact hmod _ (by linarith) (by linarith)
      rw [ho, he]
      exact ⟨by ring, by linarith, by linarith⟩
    · have ho : singleAddOverflow x y (-1) f = 0 := by
        have hc1 : ¬ ((-1 : ℤ) = 1 ∧ f ≤ combine x + -1 * combine y) :=
          fun h => absurd h.1 (by decide)
        have hc2 : ¬ ((-1 : ℤ) = -1 ∧ combine x + -1 * combine y < 0) :=
          fun h => hlt h.2
        rw [singleAddOverflow, if_neg hfne, if_neg hc1, if_neg hc2]
      have he : (combine x + -1 * combine y) % f = combine x + -1 * combine y :=
        hmod _ (by linarith) (by linarith)
      rw [ho, he]
      exact ⟨by ring, by linarith, by linarith⟩

theorem sumConstVal_eq (x0 : ℤ) (signs rest : List ℤ) :
    sumConstVal x0 rest signs =
      x0 + ((List.zip signs rest).map (fun p => p.1 * p.2)).sum := by
  rw [sumConstVal]
  generalize List.zip signs rest = ps
  induction ps generalizing x0 with
  | nil => simp
  | cons p ps ih => rw [List.foldl_cons, ih, List.map_cons, List.sum_cons]; ring

theorem emod_bounds (a f : ℤ) (hf : 0 < f) : 0 ≤ a % f ∧ a % f < f :=
  ⟨Int.emod_nonneg a (ne_of_gt hf), Int.emod_lt_of_pos a hf⟩

/-! ### Claim theorems: codec, addition, multiplication, configuration -/

/-- C9: for every integer `x ∈ [0, 2^l3)`, decomposing into a limb-triple and
recombining yields `x` exactly: `combine(split(x)) = x` (`split` and
`combine` are total functions with no failure mode by construction). -/
theorem c9_split_combine_roundtrip (x : ℤ) (h0 : 0 ≤ x) (h3 : x < 2 ^ l3) :
    combine (split x) = x :=
  combine_split_eq x h0 h3

theorem c9_split_combine_roundtrip_witness :
    (0 : ℤ) ≤ 2 ^ l3 - 1 ∧ ((2 : ℤ) ^ l3 - 1 < 2 ^ l3) ∧
      combine (split (2 ^ l3 - 1)) = 2 ^ l3 - 1 :=
  ⟨by decide, by decide, c9_split_combine_roundtrip _ (by decide) (by decide)⟩

/-- C5: for `f > 0` (within the data model's modulus range `f < 2^259`),
`x, y ∈ [0, f)` and `sign ∈ {1, -1}`, the two-term chain
`sum([x, y], [sign], f)` has value `(x + sign*y) mod f` in both the constant
and the provable mode; and with all-constant terms, `sum(terms, signs, f)`
constant-folds to `(t0 + Σ signᵢ·tᵢ) mod f`. -/
theorem c5_addition_sound (x y x0 : bigint3) (rest : List bigint3)
    (signs : List ℤ) (s f : ℤ) (mode : Bool)
    (hs : s = 1 ∨ s = -1) (hf : 0 < f) (hf259 : f < 2 ^ 259)
    (hx0 : 0 ≤ combine x) (hx1 : combine x < f)
    (hy0 : 0 ≤ combine y) (hy1 : combine y < f)
    (hlen : rest.length = signs.length) :
    (∃ r, sum [x, y] [s] mode f = some r ∧
      combine r = (combine x + s * combine y) % f) ∧
    (∃ r, sum (x0 :: rest) signs true f = some r ∧
      combine r = (combine x0 +
        ((List.zip signs (rest.map combine)).map (fun p => p.1 * p.2)).sum) % f) := by
  have hf3 : f < 2 ^ l3 := lt_trans hf259 two_pow_259_lt_l3
  have hroundtrip : ∀ a : ℤ, combine (split (a % f)) = a % f := fun a =>
    combine_split_eq _ (emod_bounds a f hf).1
      (lt_trans (emod_bounds a f hf).2 hf3)
  constructor
  · cases mode
    · refine ⟨(singleAdd x y s f).1, ?_, ?_⟩
      · rw [sum]
        norm_num [addChain]
      · exact (singleAdd_sound x y s f hs hf hf3 hx0 hx1 hy0 hy1).1
    · refine ⟨split ((combine x + s * combine y) % f), ?_, hroundtrip _⟩
      rw [sum]
      norm_num [sumConstVal, fieldMod]
  · refine ⟨split ((combine x0 +
        ((List.zip signs (rest.map combine)).map (fun p => p.1 * p.2)).sum) % f),
      ?_, hroundtrip _⟩
    rw [sum]
    have hc : ¬ (x0 :: rest).length ≠ signs.length + 1 := by
      simp [hlen]
    rw [if_neg hc]
    simp only [fieldMod, sumConstVal_eq, if_true]

theorem c5_addition_sound_witness :
    ∃ r, sum [split 5, split 3] [1] false 7 = some r ∧
      combine r = (combine (split 5) + 1 * combine (split 3)) % 7 :=
  ((c5_addition_sound (split 5) (split 3) (split 1) [] [] 1 7 false
    (Or.inl rfl) (by decide) (by decide) (by decide) (by decide) (by decide)
    (by decide) rfl).1)

theorem multiplyNoRangeCheck_r01 (a b : bigint3) (f : ℤ) :
    (multiplyNoRangeCheck a b f).r01 =
      combine2
        (split (combine a * combine b - Int.tdiv (combine a * combine b) f * f)).x0
        (split (combine a * combine b - Int.tdiv (combine a * combine b) f * f)).x1 :=
  rfl

theorem multiplyNoRangeCheck_r2 (a b : bigint3) (f : ℤ) :
    (multiplyNoRangeCheck a b f).r2 =
      (split (combine a * combine b - Int.tdiv (combine a * combine b) f * f)).x2 :=
  rfl

/-- C1: for `0 < f < 2^259` and operands with values in `[0, f)`, `multiply`
returns the limb-triple representing `(x*y) mod f` in both modes; the
constant case is direct modular multiplication. -/
theorem c1_multiplication_sound (a b : bigint3) (f : ℤ) (mode : Bool)
    (hf : 0 < f) (hf259 : f < 2 ^ 259)
    (ha0 : 0 ≤ combine a) (ha1 : combine a < f)
    (hb0 : 0 ≤ combine b) (hb1 : combine b < f) :
    ∃ r, multiply a b mode f = some r ∧
      r = split (combine a * combine b % f) ∧
      combine r = combine a * combine b % f := by
  have hf3 : f < 2 ^ l3 := lt_trans hf259 two_pow_259_lt_l3
  have hbounds := emod_bounds (combine a * combine b) f hf
  have hroundtrip : combine (split (combine a * combine b % f)) =
      combine a * combine b % f :=
    combine_split_eq _ hbounds.1 (lt_trans hbounds.2 hf3)
  rw [multiply, if_neg (not_not_intro hf259)]
  cases mode
  · have hq : Int.tdiv (combine a * combine b) f = combine a * combine b / f :=
      Int.tdiv_eq_ediv (mul_nonneg ha0 hb0) (le_of_lt hf)
    have hrr : combine a * combine b - Int.tdiv (combine a * combine b) f * f =
        combine a * combine b % f := by
      rw [hq, Int.emod_def]; ring
    refine ⟨compactMultiRangeCheck (multiplyNoRangeCheck a b f).r01
      (multiplyNoRangeCheck a b f).r2, rfl, ?_, ?_⟩
    · rw [multiplyNoRangeCheck_r01, multiplyNoRangeCheck_r2, hrr,
        compactMultiRangeCheck, combine2_split]
      show (⟨(combine a * combine b % f) % 2 ^ l2 % 2 ^ l,
        (combine a * combine b % f) % 2 ^ l2 / 2 ^ l,
        (split (combine a * combine b % f)).x2⟩ : bigint3) = _
      rw [Int.emod_emod_of_dvd _ l_dvd_l2, emod_l2_ediv_l]
      rfl
    · rw [multiplyNoRangeCheck_r01, multiplyNoRangeCheck_r2, hrr,
        compactMultiRangeCheck, combine2_split]
      show combine ⟨(combine a * combine b % f) % 2 ^ l2 % 2 ^ l,
        (combine a * combine b % f) % 2 ^ l2 / 2 ^ l,
        (split (combine a * combine b % f)).x2⟩ = _
      rw [Int.emod_emod_of_dvd _ l_dvd_l2, emod_l2_ediv_l]
      exact hroundtrip
  · exact ⟨split (combine a * combine b % f), rfl, rfl, hroundtrip⟩

theorem c1_multiplication_sound_witness :
    ∃ r, multiply (split (2 ^ 255 - 1)) (split 7) false (2 ^ 256 - 2 ^ 32 - 977) =
        some r ∧
      r = split (combine (split (2 ^ 255 - 1)) * combine (split 7) %
        (2 ^ 256 - 2 ^ 32 - 977)) ∧
      combine r = combine (split (2 ^ 255 - 1)) * combine (split 7) %
        (2 ^ 256 - 2 ^ 32 - 977) :=
  c1_multiplication_sound (split (2 ^ 255 - 1)) (split 7) (2 ^ 256 - 2 ^ 32 - 977)
    false (by decide) (by decide) (by decide) (by decide) (by decide) (by decide)

/-- C8: for every modulus `f ≥ 2^259`, each of `multiply`, `inverse` and
`divide` fails synchronously at construction time, for all operands and in
both modes. -/
theorem c8_configuration_error (a b x y : bigint3) (f : ℤ) (azz mode : Bool)
    (hf : 2 ^ 259 ≤ f) :
    multiply a b mode f = none ∧ inverse x mode f = none ∧
      divide x y f azz mode = none := by
  have h : ¬ f < 2 ^ 259 := not_lt.mpr hf
  exact ⟨by rw [multiply, if_pos h], by rw [inverse, if_pos h],
    by rw [divide, if_pos h]⟩

theorem c8_configuration_error_witness :
    multiply (split 1) (split 1) true (2 ^ 259) = none ∧
      inverse (split 1) true (2 ^ 259) = none ∧
      divide (split 1) (split 1) (2 ^ 259) false true = none :=
  c8_configuration_error (split 1) (split 1) (split 1) (split 1) (2 ^ 259)
    false true (by decide)

/-! ### The `Sum` state machine: claims C7 and C10 -/

/-- A finalized `Sum` rejects every further mutation or finalization. -/
theorem finalized_rejects (s1 : SumState) (r : bigint3) (h : s1.res = some r)
    (f2 : ℤ) (c2 : Bool) (y : bigint3) :
    s1.result = some r ∧ s1.add y = none ∧ s1.sub y = none ∧
    s1.finish f2 c2 = none ∧ s1.finishForMulInput f2 c2 = none ∧
    SumState.fromUnfinished (Sum.inr s1) = none := by
  refine ⟨h, ?_, ?_, ?_, ?_, ?_⟩ <;>
    simp [SumState.add, SumState.sub, SumState.finish,
      SumState.finishForMulInput, SumState.fromUnfinished, h]

/-- A successful `finish` stores its return value as the chain's result. -/
theorem finish_sets_result (s : SumState) (f : ℤ) (c : Bool) (s1 : SumState)
    (r : bigint3) (h : s.finish f c = some (s1, r)) : s1.res = some r := by
  rw [SumState.finish] at h
  split at h
  · exact absurd h (by simp)
  · split at h
    · exact absurd h (by simp)
    · split at h
      · simp only [Option.some.injEq, Prod.mk.injEq] at h
        obtain ⟨rfl, rfl⟩ := h
        rfl
      · simp only [Option.some.injEq, Prod.mk.injEq] at h
        obtain ⟨rfl, rfl⟩ := h
        rfl

/-- A successful `finishForMulInput` stores its return value as the result. -/
theorem finishForMulInput_sets_result (s : SumState) (f : ℤ) (c : Bool)
    (s1 : SumState) (r : bigint3) (ok : Bool)
    (h : s.finishForMulInput f c = some (s1, r, ok)) : s1.res = some r := by
  rw [SumState.finishForMulInput] at h
  split at h
  · exact absurd h (by simp)
  · split at h
    · exact absurd h (by simp)
    · split at h
      · simp only [Option.some.injEq, Prod.mk.injEq] at h
        obtain ⟨rfl, rfl, rfl⟩ := h
        rfl
      · split at h
        · simp only [Option.some.injEq, Prod.mk.injEq] at h
          obtain ⟨rfl, rfl, rfl⟩ := h
          rfl
        · simp only [Option.some.injEq, Prod.mk.injEq] at h
          obtain ⟨rfl, rfl, rfl⟩ := h
          rfl

/-- C7: a `Sum` is in exactly one of two states. While building
(`res = none`), reading `.result` fails; after a first successful `finish` or
`finishForMulInput`, the stored result is returned by `.result` and every
further `add`, `sub`, `finish`, `finishForMulInput` or `fromUnfinished` call
fails, so a `Sum` is finalized at most once. -/
theorem c7_sum_finalize_once (s : SumState) (f f2 : ℤ) (c c2 : Bool)
    (y : bigint3) :
    (s.res = none → s.result = none) ∧
    (∀ s1 r, s.finish f c = some (s1, r) →
      s1.result = some r ∧ s1.add y = none ∧ s1.sub y = none ∧
      s1.finish f2 c2 = none ∧ s1.finishForMulInput f2 c2 = none ∧
      SumState.fromUnfinished (Sum.inr s1) = none) ∧
    (∀ s1 r ok, s.finishForMulInput f c = some (s1, r, ok) →
      s1.result = some r ∧ s1.add y = none ∧ s1.sub y = none ∧
      s1.finish f2 c2 = none ∧ s1.finishForMulInput f2 c2 = none ∧
      SumState.fromUnfinished (Sum.inr s1) = none) := by
  refine ⟨fun h => h, fun s1 r h => ?_, fun s1 r ok h => ?_⟩
  · exact finalized_rejects s1 r (finish_sets_result s f c s1 r h) f2 c2 y
  · exact finalized_rejects s1 r
      (finishForMulInput_sets_result s f c s1 r ok h) f2 c2 y

theorem c7_sum_finalize_once_witness :
    ∃ s1 r, (SumState.make (split 1)).finish 7 true = some (s1, r) ∧
      s1.result = some r ∧ s1.add (split 2) = none ∧ s1.sub (split 2) = none ∧
      s1.finish 5 false = none ∧ s1.finishForMulInput 5 false = none ∧
      SumState.fromUnfinished (Sum.inr s1) = none := by
  have h := (c7_sum_finalize_once (SumState.make (split 1)) 7 5 true false
    (split 2)).2.1 ⟨some (split 1), [split 1], []⟩ (split 1) (by decide)
  exact ⟨_, _, by decide, h⟩

/-- C10: for a `Sum` built from an initial triple `x` with no `add`/`sub`,
both finalizers return `x` itself unchanged for any modulus `f` and any mode
(no reduction mod `f`), and a subsequent `rangeCheck()` call emits no range
check (the emitted list is empty). -/
theorem c10_trivial_sum_identity (x : bigint3) (f : ℤ) (c : Bool) :
    (SumState.make x).finish f c = some (⟨some x, [x], []⟩, x) ∧
    (SumState.make x).finishForMulInput f c = some (⟨some x, [x], []⟩, x, true) ∧
    SumState.rangeCheck ⟨some x, [x], []⟩ = some [] := by
  refine ⟨?_, ?_, ?_⟩ <;>
    simp [SumState.make, SumState.finish, SumState.finishForMulInput,
      SumState.rangeCheck]

/-! ### Division and inversion: claims C3 and C4 -/

/-- Correctness of the modelled extended-Euclid inverse: a returned value is
a multiplicative inverse modulo `f`. -/
theorem modInverse_correct (a f b : ℤ) (h : modInverse a f = some b) :
    0 < f ∧ a * b % f = 1 % f := by
  rw [modInverse] at h
  by_cases hf : 0 < f
  · rw [if_pos hf] at h
    obtain ⟨k, hk, hkeq⟩ := List.exists_of_findSome?_eq_some h
    by_cases hp : a * (k : ℤ) % f = 1 % f
    · rw [if_pos hp] at hkeq
      obtain rfl : (k : ℤ) = b := Option.some.inj hkeq
      exact ⟨hf, hp⟩
    · rw [if_neg hp] at hkeq
      exact absurd hkeq (by simp)
  · rw [if_neg hf] at h
    exact absurd h (by simp)

/-- The modelled inverse reports non-invertibility for the value `0` whenever
`f > 1`. -/
theorem modInverse_zero (f : ℤ) (hf : 1 < f) : modInverse 0 f = none := by
  rw [modInverse, if_pos (by linarith : (0 : ℤ) < f),
    List.findSome?_eq_none_iff]
  intro k hk
  have hne : (0 : ℤ) * (k : ℤ) % f ≠ 1 % f := by
    rw [zero_mul, Int.zero_emod,
      Int.emod_eq_of_lt (by norm_num : (0 : ℤ) ≤ 1) hf]
    norm_num
  rw [if_neg hne]

/-- C3 counterexample: in constant mode with `allowZeroOverZero` enabled,
`divide(0, 0, 7)` still fails at construction (the constant path asserts the
inverse exists and ignores `allowZeroOverZero`). -/
theorem c3_constant_mode_counterexample :
    divide (split 0) (split 0) 7 true true = none := by decide

/-- C3 (amended): for `1 < f < 2^259` and `y = 0`, the symbolic mode of
`divide` produces the filler result without crashing when `allowZeroOverZero`
is set (and with the zero-guard failing at proof time when it is not), while
the constant mode fails at construction regardless of `allowZeroOverZero`. -/
theorem c3_zero_over_zero_amended (x y : bigint3) (f : ℤ) (azz : Bool)
    (hf1 : 1 < f) (hf259 : f < 2 ^ 259) (hy : combine y = 0)
    (hy0 : 0 ≤ y.x0) (hy1 : 0 ≤ y.x1) (hy2 : 0 ≤ y.x2) :
    divide x y f azz true = none ∧
    divide x y f true false = some (⟨0, 0, 0⟩, true) ∧
    divide x y f false false = some (⟨0, 0, 0⟩, false) := by
  have hinv : modInverse (combine y) f = none := by
    rw [hy]
    exact modInverse_zero f hf1
  have hlimb0 : y.x0 = 0 ∧ y.x1 = 0 ∧ y.x2 = 0 := by
    have h1 : 0 ≤ y.x1 * 2 ^ l := mul_nonneg hy1 (le_of_lt (two_pow_pos l))
    have h2 : 0 ≤ y.x2 * 2 ^ l2 := mul_nonneg hy2 (le_of_lt (two_pow_pos l2))
    have hc : y.x0 + y.x1 * 2 ^ l + y.x2 * 2 ^ l2 = 0 := hy
    have hx0 : y.x0 = 0 := by omega
    have hx1 : y.x1 * 2 ^ l = 0 := by omega
    have hx2 : y.x2 * 2 ^ l2 = 0 := by omega
    refine ⟨hx0, ?_, ?_⟩
    · exact (mul_eq_zero.mp hx1).resolve_right (ne_of_gt (two_pow_pos l))
    · exact (mul_eq_zero.mp hx2).resolve_right (ne_of_gt (two_pow_pos l2))
  have hguard : divideGuard y f = false := by
    rw [divideGuard, decide_eq_false_iff_not]
    intro hg
    exact hg.1 ⟨by rw [hlimb0.1, hlimb0.2.1]; ring, hlimb0.2.2⟩
  have h259 : ¬ ¬ f < 2 ^ 259 := not_not_intro hf259
  refine ⟨?_, ?_, ?_⟩
  · rw [divide, if_neg h259, if_pos rfl, hinv]
  · rw [divide, if_neg h259, hinv]
    simp
  · rw [divide, if_neg h259, hinv]
    simp [hguard]

theorem c3_zero_over_zero_amended_witness :
    divide (split 3) (split 0) 7 false true = none ∧
    divide (split 3) (split 0) 7 true false = some (⟨0, 0, 0⟩, true) ∧
    divide (split 3) (split 0) 7 false false = some (⟨0, 0, 0⟩, false) :=
  c3_zero_over_zero_amended (split 3) (split 0) 7 false (by decide) (by decide)
    (by decide) (by decide) (by decide) (by decide)

/-- C4: for `0 < f < 2^259`, `x ∈ [0, f)` and a range-checked divisor `y`
invertible mod `f` with `y ∉ {0, f}`, `divide(x, y, f)` returns `z` with
`z * y ≡ x (mod f)` and the zero-guard assertions hold; moreover the guard
(comparing `y`'s combined low-mid limb and high limb against `0` and against
`f`'s split) passes exactly when `y ≠ 0` and `y ≠ f`. -/
theorem c4_division_sound (x y : bigint3) (f yInv : ℤ)
    (hf : 0 < f) (hf259 : f < 2 ^ 259)
    (hx0 : 0 ≤ combine x) (hx1 : combine x < f)
    (hinv : modInverse (combine y) f = some yInv)
    (hyne0 : combine y ≠ 0) (hynef : combine y ≠ f)
    (hy00 : 0 ≤ y.x0) (hy01 : y.x0 < 2 ^ l)
    (hy10 : 0 ≤ y.x1) (hy11 : y.x1 < 2 ^ l)
    (hy20 : 0 ≤ y.x2) (hy21 : y.x2 < 2 ^ l) :
    ∃ z, divide x y f false false = some (z, true) ∧
      combine z * combine y % f = combine x % f ∧
      (divideGuard y f = true ↔ (combine y ≠ 0 ∧ combine y ≠ f)) := by
  have hf3 : f < 2 ^ l3 := lt_trans hf259 two_pow_259_lt_l3
  have hfs : combine (split f) = f := combine_split_eq f (le_of_lt hf) hf3
  have hysplit : split (combine y) = y :=
    split_combine_of_ranges y hy00 hy01 hy10 hy11 hy20 hy21
  have hcy : combine y = y.x0 + y.x1 * 2 ^ l + y.x2 * 2 ^ l2 := rfl
  have hcf : combine (split f) =
      combine2 (split f).x0 (split f).x1 + (split f).x2 * 2 ^ l2 := rfl
  have key0 : (y.x0 + y.x1 * 2 ^ l = 0 ∧ y.x2 = 0) ↔ combine y = 0 := by
    constructor
    · rintro ⟨h1, h2⟩
      rw [hcy, h2]
      linarith
    · intro h0
      have h1' : 0 ≤ y.x1 * 2 ^ l := mul_nonneg hy10 (le_of_lt (two_pow_pos l))
      have h2' : 0 ≤ y.x2 * 2 ^ l2 := mul_nonneg hy20 (le_of_lt (two_pow_pos l2))
      have hc : y.x0 + y.x1 * 2 ^ l + y.x2 * 2 ^ l2 = 0 := by rw [← hcy]; exact h0
      have hz2 : y.x2 * 2 ^ l2 = 0 := by omega
      exact ⟨by omega,
        (mul_eq_zero.mp hz2).resolve_right (ne_of_gt (two_pow_pos l2))⟩
  have keyf : (y.x0 + y.x1 * 2 ^ l = combine2 (split f).x0 (split f).x1 ∧
      y.x2 = (split f).x2) ↔ combine y = f := by
    constructor
    · rintro ⟨h1, h2⟩
      rw [hcy, h2, h1, ← hcf]
      exact hfs
    · intro hfe
      have hsy : split f = y := by rw [← hfe, hysplit]
      exact ⟨by rw [← hsy]; rfl, by rw [← hsy]⟩
  have hguard_iff : divideGuard y f = true ↔
      (combine y ≠ 0 ∧ combine y ≠ f) := by
    rw [divideGuard, decide_eq_true_eq]
    simp only [key0, keyf]
  have hmain : combine (split (combine x * yInv % f)) * combine y % f =
      combine x % f := by
    have hb := emod_bounds (combine x * yInv) f hf
    rw [combine_split_eq _ hb.1 (lt_trans hb.2 hf3)]
    have hinv1 : combine y * yInv % f = 1 % f :=
      (modInverse_correct (combine y) f yInv hinv).2
    calc combine x * yInv % f * combine y % f
        = combine x * yInv % f % f * (combine y % f) % f := by
          conv_lhs => rw [Int.mul_emod]
      _ = combine x * yInv % f * (combine y % f) % f := by
          rw [Int.emod_emod_of_dvd _ (dvd_refl f)]
      _ = combine x * yInv * combine y % f := by rw [← Int.mul_emod]
      _ = combine x % f * (combine y * yInv % f) % f := by
          rw [← Int.mul_emod]
          congr 1
          ring
      _ = combine x % f * (1 % f) % f := by rw [hinv1]
      _ = combine x * 1 % f := by rw [← Int.mul_emod]
      _ = combine x % f := by rw [mul_one]
  refine ⟨split (fieldMod (combine x * yInv) f), ?_, hmain, hguard_iff⟩
  rw [divide, if_neg (not_not_intro hf259), hinv]
  simp [hguard_iff.mpr ⟨hyne0, hynef⟩]

theorem c4_division_sound_witness :
    ∃ z, divide (split 3) (split 5) 7 false false = some (z, true) ∧
      combine z * combine (split 5) % 7 = combine (split 3) % 7 ∧
      (divideGuard (split 5) 7 = true ↔
        (combine (split 5) ≠ 0 ∧ combine (split 5) ≠ 7)) :=
  c4_division_sound (split 3) (split 5) 7 3 (by decide) (by decide) (by decide)
    (by decide) (by decide) (by decide) (by decide) (by decide) (by decide)
    (by decide) (by decide) (by decide) (by decide)

/-! ### `assertLessThan`: claim C6 -/

/-- C6: for `0 < f` (within the modulus range), the constant mode of
`assertLessThan(x, f)` accepts every `x < f` and fails immediately for
`x ≥ f` (in particular `x = f`); the symbolic mode reduces to
`negate(x, f-1)`; and for a range-checked input whose value equals `f`, the
negation witness has value `-1`, whose high limb is negative, so the result
range check (and hence verification of a proof built against `x = f`) must
fail. -/
theorem c6_assertLessThan (x xf : bigint3) (f : ℤ)
    (hf : 0 < f) (hf259 : f < 2 ^ 259) (hxf : combine xf = f) :
    (combine x < f → assertLessThan x true f = some none) ∧
    (f ≤ combine x → assertLessThan x true f = none) ∧
    (assertLessThan x false f = some (negate x false (f - 1))) ∧
    (∃ r, negate xf false (f - 1) = some r ∧ combine r = -1 ∧
      multiRangeCheckHolds r = false) := by
  have hf3 : f < 2 ^ l3 := lt_trans hf259 two_pow_259_lt_l3
  have hnn : ¬ ¬ 0 < f := not_not_intro hf
  refine ⟨?_, ?_, ?_, ?_⟩
  · intro hlt
    rw [assertLessThan, if_neg hnn, if_pos rfl, if_pos hlt]
  · intro hge
    rw [assertLessThan, if_neg hnn, if_pos rfl, if_neg (not_lt.mpr hge)]
  · rw [assertLessThan, if_neg hnn]
    rfl
  · have hneg : negate xf false (f - 1) =
        some (singleAdd (split 0) xf (-1) (f - 1)).1 := by
      rw [negate, sum]
      norm_num [addChain]
    have hzero : combine (split 0) = 0 := by decide
    have hr : combine xf * (-1) = -f := by rw [hxf]; ring
    have hval : combine (singleAdd (split 0) xf (-1) (f - 1)).1 = -1 := by
      rw [combine_singleAdd, hzero]
      by_cases hf1 : f - 1 = 0
      · have ho : singleAddOverflow (split 0) xf (-1) (f - 1) = 0 := by
          rw [singleAddOverflow, if_pos hf1]
        rw [ho, hxf]
        linarith
      · have hlt0 : combine (split 0) + -1 * combine xf < 0 := by
          rw [hzero, hxf]; linarith
        have ho : singleAddOverflow (split 0) xf (-1) (f - 1) = -1 := by
          have hc1 : ¬ ((-1 : ℤ) = 1 ∧ f - 1 ≤ combine (split 0) + -1 * combine xf) :=
            fun h => absurd h.1 (by decide)
          rw [singleAddOverflow, if_neg hf1, if_neg hc1, if_pos ⟨rfl, hlt0⟩]
        have hfm : combine (split (f - 1)) = f - 1 :=
          combine_split_eq (f - 1) (by linarith) (by linarith)
        rw [ho, hfm, hxf]
        ring
    have hlimbs := singleAdd_low_limbs_range (split 0) xf (-1) (f - 1)
    set r := (singleAdd (split 0) xf (-1) (f - 1)).1 with hrdef
    have hx2neg : r.x2 < 0 := by
      by_contra hc
      push_neg at hc
      have h1 : 0 ≤ r.x1 * 2 ^ l :=
        mul_nonneg hlimbs.2.2.1 (le_of_lt (two_pow_pos l))
      have h2 : 0 ≤ r.x2 * 2 ^ l2 := mul_nonneg hc (le_of_lt (two_pow_pos l2))
      have hcr : r.x0 + r.x1 * 2 ^ l + r.x2 * 2 ^ l2 = -1 := hval
      have := hlimbs.1
      omega
    refine ⟨r, hneg, hval, ?_⟩
    rw [multiRangeCheckHolds, decide_eq_false_iff_not]
    intro h
    exact absurd h.2.2.2.2.1 (not_le.mpr hx2neg)

theorem c6_assertLessThan_witness :
    (combine (split 3) < 7 → assertLessThan (split 3) true 7 = some none) ∧
    (7 ≤ combine (split 3) → assertLessThan (split 3) true 7 = none) ∧
    (assertLessThan (split 3) false 7 = some (negate (split 3) false 6)) ∧
    (∃ r, negate (split 7) false 6 = some r ∧ combine r = -1 ∧
      multiRangeCheckHolds r = false) := by
  have h := c6_assertLessThan (split 3) (split 7) 7 (by decide) (by decide)
    (by decide)
  exact ⟨h.1, h.2.1, h.2.2.1, h.2.2.2⟩

/-! ### `finishForMulInput` equivalence: claim C2 -/

theorem ediv_three_cases (a m : ℤ) (hm : 0 < m) (h1 : -m ≤ a) (h2 : a < 2 * m) :
    a / m = -1 ∨ a / m = 0 ∨ a / m = 1 := by
  have hlb : (-1 : ℤ) ≤ a / m := by
    have h := Int.ediv_le_ediv hm h1
    rwa [show -m = -1 * m by ring, Int.mul_ediv_cancel _ (ne_of_gt hm)] at h
  have hub : a / m ≤ 1 := by
    have h3 : a ≤ m - 1 + m * 1 := by linarith
    have h := Int.ediv_le_ediv hm h3
    rw [Int.add_mul_ediv_left _ _ (ne_of_gt hm)] at h
    have hz : (m - 1) / m = 0 :=
      Int.ediv_eq_zero_of_lt (by linarith) (by linarith)
    rw [hz, zero_add] at h
    exact h
  omega

/-- The witnessed low-limb carry of a `finishForMulInput` step lies in
`{-1, 0, 1}` (this is what `assertOneOf(carry, [0, 1, -1])` checks). -/
theorem genericCarry_cases (x0w : ℤ) (y : bigint3) (s o f : ℤ)
    (hx0 : 0 ≤ x0w) (hx1 : x0w < 2 ^ l) (hy0 : 0 ≤ y.x0) (hy1 : y.x0 < 2 ^ l)
    (hso : (s = 1 ∧ (o = 0 ∨ o = 1)) ∨ (s = -1 ∧ (o = 0 ∨ o = -1))) :
    genericCarry x0w y s o f = -1 ∨ genericCarry x0w y s o f = 0 ∨
      genericCarry x0w y s o f = 1 := by
  have hf0 : 0 ≤ f % 2 ^ l := Int.emod_nonneg f (ne_of_gt (two_pow_pos l))
  have hf1 : f % 2 ^ l < 2 ^ l := Int.emod_lt_of_pos f (two_pow_pos l)
  refine ediv_three_cases _ _ (two_pow_pos l) ?_ ?_ <;>
    rcases hso with ⟨hs, ho | ho⟩ | ⟨hs, ho | ho⟩ <;> subst hs <;> subst ho <;>
      omega

theorem genericX0_emod (x0w : ℤ) (y : bigint3) (s o f : ℤ) :
    genericX0 x0w y s o (genericCarry x0w y s o f) f =
      (x0w + s * y.x0 - o * (f % 2 ^ l)) % 2 ^ l := by
  rw [genericX0, genericCarry]
  conv_rhs => rw [Int.emod_def]
  ring

/-- Invariant of the `finishForMulInput` loops: on range-checked low limbs,
the generic low-limb gates track the `ffadd` chain exactly — every per-step
assertion holds and the chain result is the plain `addChain` fold. -/
theorem mulInput_chain_eq (f : ℤ) (hf0 : 0 ≤ f) (hf3 : f < 2 ^ l3)
    (terms : List (ℤ × bigint3)) :
    ∀ x : bigint3,
      (∀ p ∈ terms, (p.1 = 1 ∨ p.1 = -1) ∧ 0 ≤ p.2.x0 ∧ p.2.x0 < 2 ^ l) →
      0 ≤ x.x0 → x.x0 < 2 ^ l →
      mulInputChain f x terms (mulInputGenericSteps f x.x0 (combine x) terms) =
        (addChain f x terms, true) := by
  have hsf : combine (split f) = f := combine_split_eq f hf0 hf3
  induction terms with
  | nil =>
    intro x hp h0 h1
    rfl
  | cons p rest ih =>
    obtain ⟨s, y⟩ := p
    intro x hp h0 h1
    obtain ⟨hs, hy0, hy1⟩ := hp (s, y) (List.mem_cons_self _ _)
    have hrest : ∀ p ∈ rest, (p.1 = 1 ∨ p.1 = -1) ∧ 0 ≤ p.2.x0 ∧ p.2.x0 < 2 ^ l :=
      fun p hpmem => hp p (List.mem_cons_of_mem _ hpmem)
    have hx0w : combine x % 2 ^ l = x.x0 := combine_emod_low x h0 h1
    have hov : genericOverflow (combine x) y s f = singleAddOverflow x y s f := rfl
    have hso : (s = 1 ∧ (singleAddOverflow x y s f = 0 ∨
          singleAddOverflow x y s f = 1)) ∨
        (s = -1 ∧ (singleAddOverflow x y s f = 0 ∨
          singleAddOverflow x y s f = -1)) := by
      rcases hs with hs | hs <;> subst hs
      · exact Or.inl ⟨rfl, (singleAddOverflow_cases x y 1 f).1 rfl⟩
      · exact Or.inr ⟨rfl, (singleAddOverflow_cases x y (-1) f).2 rfl⟩
    have hcarry := genericCarry_cases x.x0 y s (singleAddOverflow x y s f) f
      h0 h1 hy0 hy1 hso
    have hx0eq : (singleAdd x y s f).1.x0 =
        genericX0 x.x0 y s (singleAddOverflow x y s f)
          (genericCarry x.x0 y s (singleAddOverflow x y s f) f) f := by
      rw [genericX0_emod, singleAdd_x0]
    have hxref2 : combine x + s * combine y - singleAddOverflow x y s f * f =
        combine (singleAdd x y s f).1 := by
      rw [combine_singleAdd, hsf]
    have hlimbs := singleAdd_low_limbs_range x y s f
    have hrec := ih (singleAdd x y s f).1 hrest hlimbs.1 hlimbs.2.1
    simp only [mulInputGenericSteps, mulInputChain, hx0w, hov, addChain,
      List.foldl_cons, ← hx0eq, hxref2]
    simp only [addChain] at hrec
    rw [hrec]
    rcases hcarry with h | h | h <;> simp [h, singleAdd_snd]

/-- C2: for every chain over the same terms and signs, any modulus in range
and any assignment of (range-checked) values to the terms,
`Sum.finishForMulInput(f)` produces exactly the result of `Sum.finish(f)`
(the plain `singleAdd` chain), with every extra per-step assertion of the
optimized mode holding, and the explicit range check after `finish` leaves
the result unchanged: the two finalization modes differ only in
constraint-row shape, never in the resulting value. -/
theorem c2_finishForMulInput_equiv (x0 : bigint3) (rest : List bigint3)
    (signs : List ℤ) (f : ℤ)
    (hf0 : 0 ≤ f) (hf3 : f < 2 ^ l3)
    (hsigns : ∀ s ∈ signs, s = 1 ∨ s = -1)
    (hlow : ∀ t ∈ x0 :: rest, 0 ≤ t.x0 ∧ t.x0 < 2 ^ l) :
    ∃ s1 s2,
      SumState.finishForMulInput ⟨none, x0 :: rest, signs⟩ f false =
        some (s1, addChain f x0 (List.zip signs rest), true) ∧
      SumState.finish ⟨none, x0 :: rest, signs⟩ f false =
        some (s2, addChain f x0 (List.zip signs rest)) ∧
      s2.rangeCheck =
        some (if signs = [] then []
          else [addChain f x0 (List.zip signs rest)]) := by
  have hx0low := hlow x0 (List.mem_cons_self _ _)
  have hterms : ∀ p ∈ List.zip signs rest,
      (p.1 = 1 ∨ p.1 = -1) ∧ 0 ≤ p.2.x0 ∧ p.2.x0 < 2 ^ l := by
    intro p hp
    obtain ⟨a, b⟩ := p
    obtain ⟨h1, h2⟩ := List.of_mem_zip hp
    exact ⟨hsigns a h1, (hlow b (List.mem_cons_of_mem _ h2)).1,
      (hlow b (List.mem_cons_of_mem _ h2)).2⟩
  have hkey : finishForMulInputProvable x0 rest signs f =
      (addChain f x0 (List.zip signs rest), true) := by
    rw [finishForMulInputProvable]
    exact mulInput_chain_eq f hf0 hf3 (List.zip signs rest) x0 hterms
      hx0low.1 hx0low.2
  by_cases hops : signs = []
  · subst hops
    refine ⟨⟨some x0, x0 :: rest, []⟩, ⟨some x0, x0 :: rest, []⟩, ?_, ?_, ?_⟩ <;>
      simp [SumState.finishForMulInput, SumState.finish, SumState.rangeCheck,
        addChain]
  · refine ⟨⟨some (addChain f x0 (List.zip signs rest)), x0 :: rest, signs⟩,
      ⟨some (addChain f x0 (List.zip signs rest)), x0 :: rest, signs⟩,
      ?_, ?_, ?_⟩
    · simp only [SumState.finishForMulInput]
      rw [if_neg hops, hkey]
      simp
    · simp only [SumState.finish]
      rw [if_neg hops]
      simp
    · simp only [SumState.rangeCheck]

theorem c2_finishForMulInput_equiv_witness :
    ∃ s1 s2,
      SumState.finishForMulInput ⟨none, [split 5, split 3], [-1]⟩ 7 false =
        some (s1, addChain 7 (split 5) (List.zip [-1] [split 3]), true) ∧
      SumState.finish ⟨none, [split 5, split 3], [-1]⟩ 7 false =
        some (s2, addChain 7 (split 5) (List.zip [-1] [split 3])) ∧
      s2.rangeCheck =
        some (if [-1] = ([] : List ℤ) then []
          else [addChain 7 (split 5) (List.zip [-1] [split 3])]) :=
  c2_finishForMulInput_equiv (split 5) [split 3] [-1] 7 (by decide) (by decide)
    (by decide) (by decide)

end ForeignFieldGadget


